import Mathlib

/-!
# Verification of the WCAG color-contrast engine

A shallow embedding of the color-science core of the ColorBlindness browser
extension: the WCAG contrast engine (`src/lib/contrast.ts`), the OKLCH-based
suggestion engine (`src/lib/suggestions.ts`), and the color-utility module
(`src/lib/color-utils.ts`).  JavaScript `number` arithmetic is modelled over
`ℝ` (over `ℚ` where only field operations occur), machine integers over `ℤ`.

The implementation of `color-utils.ts` (luminance, HSL and OKLCH conversions,
`blendColors`) is not part of the available sources — only its test suite and
its callers are — so those definitions are modelled from the specification and
are marked `Modelled from the spec:` in their doc comments.
-/

open scoped Classical

/-- RGB color: three integer channels in `[0, 255]` (canonical interchange
form, `interface RGB { r; g; b }` in `color-utils.ts`). -/
structure RGB where
  r : ℤ
  g : ℤ
  b : ℤ
  deriving DecidableEq, Repr

/-- Validity predicate for RGB colors: every channel lies in `[0, 255]`. -/
def ValidRGB (c : RGB) : Prop :=
  0 ≤ c.r ∧ c.r ≤ 255 ∧ 0 ≤ c.g ∧ c.g ≤ 255 ∧ 0 ≤ c.b ∧ c.b ≤ 255

instance (c : RGB) : Decidable (ValidRGB c) := by
  unfold ValidRGB
  infer_instance

/-- One hexadecimal digit, upper case (`toString(16).toUpperCase()`). -/
def hexDigit (n : ℕ) : Char :=
  if n < 10 then Char.ofNat (48 + n) else Char.ofNat (55 + n)

/-- Two-digit upper-case hex rendering of one channel. -/
def byteToHex (n : ℤ) : String :=
  String.mk [hexDigit (n.toNat / 16 % 16), hexDigit (n.toNat % 16)]

/-- `rgbToHex` from `color-utils.ts`: `#RRGGBB`, upper case. -/
def rgbToHex (c : RGB) : String :=
  "#" ++ byteToHex c.r ++ byteToHex c.g ++ byteToHex c.b

/-- The record type of `WCAG_THRESHOLDS` in `contrast.ts`. -/
structure WcagThresholds where
  AA_NORMAL : ℝ
  AA_LARGE : ℝ
  AA_UI : ℝ
  AAA_NORMAL : ℝ
  AAA_LARGE : ℝ

/-- `WCAG_THRESHOLDS` from `contrast.ts`:
AA normal 4.5, AA large 3, AA UI 3, AAA normal 7, AAA large 4.5. -/
noncomputable def WCAG_THRESHOLDS : WcagThresholds :=
  ⟨4.5, 3, 3, 7, 4.5⟩

/-- Modelled from the spec: `color-utils.ts` is not among the available
sources.  The WCAG sRGB channel transfer function: "threshold at 0.03928,
linear scale below, power-law `((v+0.055)/1.055)^2.4` above". -/
noncomputable def luminanceChannel (v : ℝ) : ℝ :=
  if v ≤ 0.03928 then v / 12.92 else ((v + 0.055) / 1.055) ^ (2.4 : ℝ)

/-- Modelled from the spec: `getRelativeLuminance` of `color-utils.ts`
(absent from the sources): per-channel WCAG transfer combined "with
coefficients 0.2126 R + 0.7152 G + 0.0722 B". -/
noncomputable def getRelativeLuminance (c : RGB) : ℝ :=
  0.2126 * luminanceChannel ((c.r : ℝ) / 255) +
    0.7152 * luminanceChannel ((c.g : ℝ) / 255) +
    0.0722 * luminanceChannel ((c.b : ℝ) / 255)

/-- `calculateContrastRatio` from `contrast.ts`:
`(lighter + 0.05) / (darker + 0.05)` over the two relative luminances. -/
noncomputable def calculateContrastRatio (foreground background : RGB) : ℝ :=
  let lum1 := getRelativeLuminance foreground
  let lum2 := getRelativeLuminance background
  let lighter := max lum1 lum2
  let darker := min lum1 lum2
  (lighter + 0.05) / (darker + 0.05)

/-- The `score` union type of `ContrastResult` in `contrast.ts`:
`'fail' | 'aa-large' | 'aa' | 'aaa'`. -/
inductive Score where
  | fail
  | aaLarge
  | aa
  | aaa
  deriving DecidableEq, Repr

/-- The `aa` cell block of `ContrastResult`. -/
structure AaCells where
  normalText : Prop
  largeText : Prop
  uiComponents : Prop

/-- The `aaa` cell block of `ContrastResult`. -/
structure AaaCells where
  normalText : Prop
  largeText : Prop

/-- `ContrastResult` from `contrast.ts`.  The display-only `ratioString`
field (decimal string formatting of `ratio`) is not modelled. -/
structure ContrastResult where
  ratio : ℝ
  aa : AaCells
  aaa : AaaCells
  score : Score
  foreground : String
  background : String

/-- `analyzeContrast` from `contrast.ts`: the per-cell booleans against
`WCAG_THRESHOLDS`, and the overall `score` computed by the if/else-if
ladder over `aaa.normalText`, `aa.normalText`, `aa.largeText`. -/
noncomputable def analyzeContrast (foreground background : RGB) : ContrastResult :=
  let ratio := calculateContrastRatio foreground background
  let aa : AaCells :=
    ⟨ratio ≥ WCAG_THRESHOLDS.AA_NORMAL, ratio ≥ WCAG_THRESHOLDS.AA_LARGE,
      ratio ≥ WCAG_THRESHOLDS.AA_UI⟩
  let aaa : AaaCells :=
    ⟨ratio ≥ WCAG_THRESHOLDS.AAA_NORMAL, ratio ≥ WCAG_THRESHOLDS.AAA_LARGE⟩
  let score : Score :=
    if aaa.normalText then .aaa
    else if aa.normalText then .aa
    else if aa.largeText then .aaLarge
    else .fail
  ⟨ratio, aa, aaa, score, rgbToHex foreground, rgbToHex background⟩

/-- An `{ aa, aaa }` pair of cells in the result of `getFullCompliance`. -/
structure LevelPair where
  aa : Prop
  aaa : Prop

/-- The `uiComponents` cell in the result of `getFullCompliance`. -/
structure UiPair where
  aa : Prop

/-- The (anonymous) result record of `getFullCompliance` in `contrast.ts`.
The display-only `ratioString` field is not modelled. -/
structure FullCompliance where
  ratio : ℝ
  normalText : LevelPair
  largeText : LevelPair
  uiComponents : UiPair
  overallScore : Score

/-- `getFullCompliance` from `contrast.ts`, with its `overallScore` computed
by the nested conditional expression over the ratio thresholds. -/
noncomputable def getFullCompliance (foreground background : RGB) : FullCompliance :=
  let ratio := calculateContrastRatio foreground background
  ⟨ratio,
    ⟨ratio ≥ WCAG_THRESHOLDS.AA_NORMAL, ratio ≥ WCAG_THRESHOLDS.AAA_NORMAL⟩,
    ⟨ratio ≥ WCAG_THRESHOLDS.AA_LARGE, ratio ≥ WCAG_THRESHOLDS.AAA_LARGE⟩,
    ⟨ratio ≥ WCAG_THRESHOLDS.AA_UI⟩,
    if ratio ≥ WCAG_THRESHOLDS.AAA_NORMAL then .aaa
    else if ratio ≥ WCAG_THRESHOLDS.AA_NORMAL then .aa
    else if ratio ≥ WCAG_THRESHOLDS.AA_LARGE then .aaLarge
    else .fail⟩

/-- The specification's classification ladder, stated in the spec's own words
("`aaa` if ratio ≥ 7.0; else `aa` if ratio ≥ 4.5; else `aa-large` if
ratio ≥ 3.0; else `fail`"), to be compared with the implementation. -/
noncomputable def scoreFromRatioSpec (ratio : ℝ) : Score :=
  if ratio ≥ 7.0 then .aaa
  else if ratio ≥ 4.5 then .aa
  else if ratio ≥ 3.0 then .aaLarge
  else .fail

/-- Modelled from the spec: `blendColors` of `color-utils.ts` (absent from the
sources): "`result = α·foreground + (1−α)·background`, per channel, rounded to
nearest integer". -/
def blendColors (foreground background : RGB) (alpha : ℚ) : RGB :=
  ⟨round (alpha * (foreground.r : ℚ) + (1 - alpha) * (background.r : ℚ)),
    round (alpha * (foreground.g : ℚ) + (1 - alpha) * (background.g : ℚ)),
    round (alpha * (foreground.b : ℚ) + (1 - alpha) * (background.b : ℚ))⟩

/-- HSL color: `h ∈ [0, 360)`, `s, l ∈ [0, 100]` (`interface HSL` in
`color-utils.ts`), modelled with exact rational components. -/
structure HSL where
  h : ℚ
  s : ℚ
  l : ℚ
  deriving DecidableEq, Repr

/-- Modelled from the spec: `rgbToHsl` of `color-utils.ts` (absent from the
sources): the "standard cylindrical conversion", normalizing channels to
`[0,1]`, lightness `(max+min)/2`, the two-branch saturation formula and the
per-maximum hue sector, scaled to `h ∈ [0,360)`, `s, l ∈ [0,100]`. -/
def rgbToHsl (c : RGB) : HSL :=
  let r := (c.r : ℚ) / 255
  let g := (c.g : ℚ) / 255
  let b := (c.b : ℚ) / 255
  let maxC := max r (max g b)
  let minC := min r (min g b)
  let l := (maxC + minC) / 2
  if maxC = minC then ⟨0, 0, l * 100⟩
  else
    let d := maxC - minC
    let s := if l > 1/2 then d / (2 - maxC - minC) else d / (maxC + minC)
    let h6 :=
      if maxC = r then (g - b) / d + (if g < b then 6 else 0)
      else if maxC = g then (b - r) / d + 2
      else (r - g) / d + 4
    ⟨h6 / 6 * 360, s * 100, l * 100⟩

/-- The `hue2rgb` helper of the standard HSL→RGB conversion: wrap the hue
offset into `[0,1]` and interpolate between `p` and `q` by sector. -/
def hue2rgb (p q t0 : ℚ) : ℚ :=
  let t := if t0 < 0 then t0 + 1 else if t0 > 1 then t0 - 1 else t0
  if t < 1/6 then p + (q - p) * 6 * t
  else if t < 1/2 then q
  else if t < 2/3 then p + (q - p) * (2/3 - t) * 6
  else p

/-- Modelled from the spec: `hslToRgb` of `color-utils.ts` (absent from the
sources): the standard inverse cylindrical conversion; "saturation 0 must map
to an achromatic value independent of hue". -/
def hslToRgb (hsl : HSL) : RGB :=
  let h := hsl.h / 360
  let s := hsl.s / 100
  let l := hsl.l / 100
  if s = 0 then
    let v := round (l * 255)
    ⟨v, v, v⟩
  else
    let q := if l < 1/2 then l * (1 + s) else l + s - l * s
    let p := 2 * l - q
    ⟨round (hue2rgb p q (h + 1/3) * 255), round (hue2rgb p q h * 255),
      round (hue2rgb p q (h - 1/3) * 255)⟩

/-- Modelled from the spec: the standard sRGB decoding used by the OKLCH
conversion chain ("apply the inverse gamma/transfer function with the
standard break point"). -/
noncomputable def srgbToLinear (v : ℝ) : ℝ :=
  if v ≤ 0.04045 then v / 12.92 else ((v + 0.055) / 1.055) ^ (2.4 : ℝ)

/-- Modelled from the spec: the standard sRGB encoding, inverse of
`srgbToLinear`. -/
noncomputable def linearToSrgb (v : ℝ) : ℝ :=
  if v ≤ 0.0031308 then 12.92 * v else 1.055 * v ^ ((1 : ℝ) / 2.4) - 0.055

/-- Real cube root: the odd extension of `x ^ (1/3)`, as JavaScript
`Math.cbrt`. -/
noncomputable def cbrt (x : ℝ) : ℝ :=
  if 0 ≤ x then x ^ ((1 : ℝ) / 3) else -((-x) ^ ((1 : ℝ) / 3))

/-- The OKLab `M1` matrix (linear sRGB → LMS), standard published constants. -/
noncomputable def oklabM1 : Matrix (Fin 3) (Fin 3) ℝ :=
  !![0.4122214708, 0.5363325363, 0.0514459929;
     0.2119034982, 0.6806995451, 0.1073969566;
     0.0883024619, 0.2817188376, 0.6299787005]

/-- The OKLab `M2` matrix (nonlinear LMS → OKLab), standard published
constants. -/
noncomputable def oklabM2 : Matrix (Fin 3) (Fin 3) ℝ :=
  !![0.2104542553, 0.7936177850, -0.0040720468;
     1.9779984951, -2.4285922050, 0.4505937099;
     0.0259040371, 0.7827717662, -0.8086757660]

/-- OKLCH color: perceptual lightness `l ∈ [0,1]`, chroma `c ≥ 0`, hue angle
`h ∈ [0,360)` (`interface OKLCH` in `color-utils.ts`). -/
structure OKLCH where
  l : ℝ
  c : ℝ
  h : ℝ

/-- Modelled from the spec: `rgbToOklch` of `color-utils.ts` (absent from the
sources): "convert sRGB → linear sRGB → LMS-like intermediate → OKLab →
OKLCH polar form".  The hue is the `atan2` angle of `(a, b)`, converted to
degrees and normalized into `[0, 360)`. -/
noncomputable def rgbToOklch (c : RGB) : OKLCH :=
  let lin : Fin 3 → ℝ :=
    ![srgbToLinear ((c.r : ℝ) / 255), srgbToLinear ((c.g : ℝ) / 255),
      srgbToLinear ((c.b : ℝ) / 255)]
  let lms := oklabM1.mulVec lin
  let lms3 : Fin 3 → ℝ := ![cbrt (lms 0), cbrt (lms 1), cbrt (lms 2)]
  let lab := oklabM2.mulVec lms3
  let chroma := Real.sqrt (lab 1 ^ 2 + lab 2 ^ 2)
  let hdeg := Complex.arg ⟨lab 1, lab 2⟩ * 180 / Real.pi
  ⟨lab 0, chroma, if hdeg < 0 then hdeg + 360 else hdeg⟩

/-- Clamp a rounded channel into `[0, 255]`
(`Math.max(0, Math.min(255, ·))`). -/
def clampChannel (n : ℤ) : ℤ := max 0 (min 255 n)

/-- Modelled from the spec: `oklchToRgb` of `color-utils.ts` (absent from the
sources): "the exact inverse chain back" — depolarize the hue, invert `M2`,
cube, invert `M1`, re-encode sRGB, scale to 8 bits, round and clamp. -/
noncomputable def oklchToRgb (o : OKLCH) : RGB :=
  let hrad := o.h * Real.pi / 180
  let a := o.c * Real.cos hrad
  let b := o.c * Real.sin hrad
  let lms3 := oklabM2⁻¹.mulVec ![o.l, a, b]
  let lms : Fin 3 → ℝ := ![lms3 0 ^ 3, lms3 1 ^ 3, lms3 2 ^ 3]
  let lin := oklabM1⁻¹.mulVec lms
  ⟨clampChannel (round (linearToSrgb (lin 0) * 255)),
    clampChannel (round (linearToSrgb (lin 1) * 255)),
    clampChannel (round (linearToSrgb (lin 2) * 255))⟩

/-- The `'AA' | 'AAA'` WCAG level union. -/
inductive Level where
  | AA
  | AAA
  deriving DecidableEq, Repr

/-- The `'normal' | 'large'` text-size union. -/
inductive TextSize where
  | normal
  | large
  deriving DecidableEq, Repr

/-- The `'lighter' | 'darker'` direction union of `findLightnessForContrast`
in `suggestions.ts`. -/
inductive Direction where
  | lighter
  | darker
  deriving DecidableEq, Repr

/-- The `adjustment` tag of a `ColorSuggestion`:
`'lighter' | 'darker' | 'original'`. -/
inductive Adjustment where
  | lighter
  | darker
  | original
  deriving DecidableEq, Repr

/-- The adjustment tag corresponding to a search direction. -/
def Direction.toAdjustment : Direction → Adjustment
  | .lighter => .lighter
  | .darker => .darker

/-- `ColorSuggestion` from `suggestions.ts`.  The display-only `ratioString`
field is not modelled. -/
structure ColorSuggestion where
  color : RGB
  hex : String
  contrastRatio : ℝ
  adjustment : Adjustment
  percentChange : ℝ

/-- The `original` block of `SuggestionResult`. -/
structure OriginalPair where
  foreground : RGB
  background : RGB
  ratio : ℝ

/-- The `suggestions` block of `SuggestionResult`. -/
structure SuggestionLists where
  foreground : List ColorSuggestion
  background : List ColorSuggestion

/-- `SuggestionResult` from `suggestions.ts`. -/
structure SuggestionResult where
  original : OriginalPair
  suggestions : SuggestionLists
  bestForeground : Option ColorSuggestion
  bestBackground : Option ColorSuggestion

/-- The contrast ratio achieved by a test lightness inside
`findLightnessForContrast`: the candidate keeps the original hue and chroma,
takes lightness `l`, and is measured against the fixed counterpart in the
orientation given by `adjustColorIsBackground`. -/
noncomputable def achievedRatio (originalOklch : OKLCH) (fixedColor : RGB)
    (adjustColorIsBackground : Bool) (l : ℝ) : ℝ :=
  let testRgb := oklchToRgb ⟨l, originalOklch.c, originalOklch.h⟩
  if adjustColorIsBackground then calculateContrastRatio fixedColor testRgb
  else calculateContrastRatio testRgb fixedColor

/-- The bounded bisection loop of `findLightnessForContrast`
(`while (iterations < maxIterations && maxL - minL > 0.001)`), with the
`iterations` counter returned alongside the bracket.  Structural recursion on
the remaining fuel `maxIterations - iterations`. -/
noncomputable def searchLoop (g : ℝ → ℝ) (targetRatio : ℝ) (d : Direction) :
    ℕ → ℝ → ℝ → ℝ × ℝ × ℕ
  | 0, minL, maxL => (minL, maxL, 0)
  | fuel + 1, minL, maxL =>
    if maxL - minL > 0.001 then
      let midL := (minL + maxL) / 2
      let ratio := g midL
      let next : ℝ × ℝ :=
        match d with
        | .lighter => if ratio ≥ targetRatio then (minL, midL) else (midL, maxL)
        | .darker => if ratio ≥ targetRatio then (midL, maxL) else (minL, midL)
      let res := searchLoop g targetRatio d fuel next.1 next.2
      (res.1, res.2.1, res.2.2 + 1)
    else (minL, maxL, 0)

/-- `findLightnessForContrast` from `suggestions.ts`: bisection over OKLCH
lightness (bracket `[l0, 1]` for `'lighter'`, `[0, l0]` for `'darker'`,
at most 20 iterations, bracket tolerance 0.001); the final candidate is
re-validated against the target ratio and dropped if it fails. -/
noncomputable def findLightnessForContrast (originalOklch : OKLCH)
    (fixedColor : RGB) (targetRatio : ℝ) (direction : Direction)
    (adjustColorIsBackground : Bool) : Option ColorSuggestion :=
  let originalL := originalOklch.l
  let minL0 : ℝ := match direction with | .lighter => originalL | .darker => 0
  let maxL0 : ℝ := match direction with | .lighter => 1 | .darker => originalL
  let res := searchLoop (achievedRatio originalOklch fixedColor adjustColorIsBackground)
    targetRatio direction 20 minL0 maxL0
  let finalL : ℝ := match direction with | .lighter => res.2.1 | .darker => res.1
  let finalRgb := oklchToRgb ⟨finalL, originalOklch.c, originalOklch.h⟩
  let finalRatio := achievedRatio originalOklch fixedColor adjustColorIsBackground finalL
  if finalRatio ≥ targetRatio then
    some ⟨finalRgb, rgbToHex finalRgb, finalRatio, direction.toAdjustment,
      |finalL - originalL| * 100⟩
  else none

/-- The sort `suggestions.sort((a, b) => a.percentChange - b.percentChange)`,
modelled as a stable merge sort on `percentChange`. -/
noncomputable def sortByPercentChange (l : List ColorSuggestion) : List ColorSuggestion :=
  l.mergeSort (fun a b => decide (a.percentChange ≤ b.percentChange))

/-- `findMinimumAdjustment` from `suggestions.ts`: return the no-op
`original` entry if the pair already meets the target, otherwise collect the
lighter and darker bisection results and sort by smallest change. -/
noncomputable def findMinimumAdjustment (colorToAdjust fixedColor : RGB)
    (targetRatio : ℝ) (adjustColorIsBackground : Bool) : List ColorSuggestion :=
  let originalRatio :=
    if adjustColorIsBackground then calculateContrastRatio fixedColor colorToAdjust
    else calculateContrastRatio colorToAdjust fixedColor
  if originalRatio ≥ targetRatio then
    [⟨colorToAdjust, rgbToHex colorToAdjust, originalRatio, .original, 0⟩]
  else
    sortByPercentChange
      ((findLightnessForContrast (rgbToOklch colorToAdjust) fixedColor targetRatio
          .lighter adjustColorIsBackground).toList ++
        (findLightnessForContrast (rgbToOklch colorToAdjust) fixedColor targetRatio
          .darker adjustColorIsBackground).toList)

/-- The target ratio selected by `getSuggestions` for a level and text size
(the nested conditional at the top of `getSuggestions`). -/
noncomputable def requiredRatioFor (targetLevel : Level) (textSize : TextSize) : ℝ :=
  match targetLevel with
  | .AAA => match textSize with
    | .large => WCAG_THRESHOLDS.AAA_LARGE
    | .normal => WCAG_THRESHOLDS.AAA_NORMAL
  | .AA => match textSize with
    | .large => WCAG_THRESHOLDS.AA_LARGE
    | .normal => WCAG_THRESHOLDS.AA_NORMAL

/-- `getSuggestions` from `suggestions.ts`: adjust each side independently
and expose the first non-`original` entry of each sorted list as that side's
best suggestion (`.find(s => s.adjustment !== 'original') || null`). -/
noncomputable def getSuggestions (foreground background : RGB)
    (targetLevel : Level) (textSize : TextSize) : SuggestionResult :=
  let targetRatio := requiredRatioFor targetLevel textSize
  let originalRatio := calculateContrastRatio foreground background
  let foregroundSuggestions := findMinimumAdjustment foreground background targetRatio false
  let backgroundSuggestions := findMinimumAdjustment background foreground targetRatio true
  let bestForeground :=
    foregroundSuggestions.find? (fun s => decide (s.adjustment ≠ Adjustment.original))
  let bestBackground :=
    backgroundSuggestions.find? (fun s => decide (s.adjustment ≠ Adjustment.original))
  ⟨⟨foreground, background, originalRatio⟩,
    ⟨foregroundSuggestions, backgroundSuggestions⟩, bestForeground, bestBackground⟩

/-- The monotonicity precondition of the bisection search, per direction:
for `'lighter'` the achieved ratio is nondecreasing in lightness on
`[l0, 1]`; for `'darker'` it is nonincreasing on `[0, l0]`. -/
def MonoForDirection (g : ℝ → ℝ) (l0 : ℝ) : Direction → Prop
  | .lighter => ∀ l1 l2, l0 ≤ l1 → l1 ≤ l2 → l2 ≤ 1 → g l1 ≤ g l2
  | .darker => ∀ l1 l2, 0 ≤ l1 → l1 ≤ l2 → l2 ≤ l0 → g l2 ≤ g l1

/-- Relative luminance of a zero channel is zero. -/
theorem luminanceChannel_zero : luminanceChannel 0 = 0 := by
  unfold luminanceChannel
  rw [if_pos (by norm_num)]
  norm_num

/-- Relative luminance of a full channel is one. -/
theorem luminanceChannel_one : luminanceChannel 1 = 1 := by
  unfold luminanceChannel
  rw [if_neg (by norm_num)]
  have h : ((1 : ℝ) + 0.055) / 1.055 = 1 := by norm_num
  rw [h, Real.one_rpow]

/-- Luminance of pure black is exactly 0. -/
theorem getRelativeLuminance_black : getRelativeLuminance ⟨0, 0, 0⟩ = 0 := by
  unfold getRelativeLuminance
  norm_num [luminanceChannel_zero]

/-- Luminance of pure white is exactly 1. -/
theorem getRelativeLuminance_white : getRelativeLuminance ⟨255, 255, 255⟩ = 1 := by
  unfold getRelativeLuminance
  norm_num [luminanceChannel_one]

/-- The black-on-white contrast ratio is exactly 21 in the real-number model. -/
theorem calculateContrastRatio_black_white :
    calculateContrastRatio ⟨0, 0, 0⟩ ⟨255, 255, 255⟩ = 21 := by
  unfold calculateContrastRatio
  rw [getRelativeLuminance_black, getRelativeLuminance_white]
  norm_num

/-- C1: for every pair of RGB colors, the `score` computed by
`analyzeContrast` is determined from the contrast ratio by fixed thresholds
evaluated most-strict-first: `aaa` if the ratio is ≥ 7.0, else `aa` if the
ratio is ≥ 4.5, else `aa-large` if the ratio is ≥ 3.0, else `fail`. -/
theorem analyzeContrast_score_eq_spec_ladder (fg bg : RGB) :
    (analyzeContrast fg bg).score = scoreFromRatioSpec (calculateContrastRatio fg bg) := by
  simp only [analyzeContrast, scoreFromRatioSpec, WCAG_THRESHOLDS]
  split_ifs <;>
    first
      | rfl
      | (exfalso; norm_num at *; linarith)

/-- C2: the contrast ratio is symmetric in its two arguments. -/
theorem calculateContrastRatio_symm (A B : RGB) :
    calculateContrastRatio A B = calculateContrastRatio B A := by
  simp only [calculateContrastRatio]
  rw [max_comm, min_comm]

/-- C3: for colors whose relative luminances lie in `[0, 1]` the contrast
ratio lies in `[1, 21]`; the ratio of a color with itself is 1; and the
black-on-white ratio is 21 (exactly, in the real-number model). -/
theorem calculateContrastRatio_bounds (A B X : RGB)
    (hA0 : 0 ≤ getRelativeLuminance A) (hA1 : getRelativeLuminance A ≤ 1)
    (hB0 : 0 ≤ getRelativeLuminance B) (hB1 : getRelativeLuminance B ≤ 1)
    (hX0 : 0 ≤ getRelativeLuminance X) :
    1 ≤ calculateContrastRatio A B ∧ calculateContrastRatio A B ≤ 21 ∧
      calculateContrastRatio X X = 1 ∧
      calculateContrastRatio ⟨0, 0, 0⟩ ⟨255, 255, 255⟩ = 21 := by
  refine ⟨?_, ?_, ?_, calculateContrastRatio_black_white⟩
  · simp only [calculateContrastRatio]
    have hmin : (0 : ℝ) < min (getRelativeLuminance A) (getRelativeLuminance B) + 0.05 := by
      have := le_min hA0 hB0
      linarith
    rw [le_div_iff₀ hmin]
    have := min_le_max (a := getRelativeLuminance A) (b := getRelativeLuminance B)
    linarith
  · simp only [calculateContrastRatio]
    have hmax : max (getRelativeLuminance A) (getRelativeLuminance B) + 0.05 ≤ 1.05 := by
      have := max_le hA1 hB1
      linarith
    have hmin : (0.05 : ℝ) ≤ min (getRelativeLuminance A) (getRelativeLuminance B) + 0.05 := by
      have := le_min hA0 hB0
      linarith
    have h21 : (21 : ℝ) = 1.05 / 0.05 := by norm_num
    rw [h21]
    exact div_le_div₀ (by norm_num) hmax (by norm_num) hmin
  · simp only [calculateContrastRatio, max_self, min_self]
    have hne : getRelativeLuminance X + 0.05 ≠ 0 := by
      have : (0 : ℝ) < getRelativeLuminance X + 0.05 := by linarith
      exact ne_of_gt this
    rw [div_self hne]

/-- Witness for C3 at black, white and mid gray. -/
theorem calculateContrastRatio_bounds_witness :
    (0 ≤ getRelativeLuminance ⟨0, 0, 0⟩) ∧ (getRelativeLuminance ⟨0, 0, 0⟩ ≤ 1) ∧
      (0 ≤ getRelativeLuminance ⟨255, 255, 255⟩) ∧ (getRelativeLuminance ⟨255, 255, 255⟩ ≤ 1) ∧
      (1 ≤ calculateContrastRatio ⟨0, 0, 0⟩ ⟨255, 255, 255⟩ ∧
        calculateContrastRatio ⟨0, 0, 0⟩ ⟨255, 255, 255⟩ ≤ 21 ∧
        calculateContrastRatio ⟨255, 255, 255⟩ ⟨255, 255, 255⟩ = 1 ∧
        calculateContrastRatio ⟨0, 0, 0⟩ ⟨255, 255, 255⟩ = 21) := by
  have h0 : getRelativeLuminance (⟨0, 0, 0⟩ : RGB) = 0 := getRelativeLuminance_black
  have h1 : getRelativeLuminance (⟨255, 255, 255⟩ : RGB) = 1 := getRelativeLuminance_white
  refine ⟨by rw [h0], by rw [h0]; norm_num, by rw [h1]; norm_num, by rw [h1], ?_⟩
  exact calculateContrastRatio_bounds ⟨0, 0, 0⟩ ⟨255, 255, 255⟩ ⟨255, 255, 255⟩
    (by rw [h0]) (by rw [h0]; norm_num) (by rw [h1]; norm_num) (by rw [h1])
    (by rw [h1]; norm_num)

/-- C10: the `score` field of `analyzeContrast` and the `overallScore` field
of `getFullCompliance` — two independently written classification chains —
agree for every pair of RGB colors. -/
theorem analyzeContrast_score_eq_getFullCompliance (fg bg : RGB) :
    (analyzeContrast fg bg).score = (getFullCompliance fg bg).overallScore := by
  simp only [analyzeContrast, getFullCompliance]

/-- C9: `blendColors` computes, per channel, `α·foreground + (1−α)·background`
rounded to the nearest integer; `α = 1` returns the foreground exactly,
`α = 0` returns the background exactly, and blending pure red over pure blue
at `α = 0.5` gives `{128, 0, 128}`. -/
theorem blendColors_formula (fg bg : RGB) (alpha : ℚ)
    (_h0 : 0 ≤ alpha) (_h1 : alpha ≤ 1) :
    blendColors fg bg alpha =
      ⟨round (alpha * (fg.r : ℚ) + (1 - alpha) * (bg.r : ℚ)),
        round (alpha * (fg.g : ℚ) + (1 - alpha) * (bg.g : ℚ)),
        round (alpha * (fg.b : ℚ) + (1 - alpha) * (bg.b : ℚ))⟩ ∧
      blendColors fg bg 1 = fg ∧
      blendColors fg bg 0 = bg ∧
      blendColors ⟨255, 0, 0⟩ ⟨0, 0, 255⟩ (1/2) = ⟨128, 0, 128⟩ := by
  refine ⟨rfl, ?_, ?_, ?_⟩
  · unfold blendColors
    simp [round_intCast]
  · unfold blendColors
    simp [round_intCast]
  · simp only [blendColors, RGB.mk.injEq]
    norm_num [round_eq]

/-- Witness for C9 at red over blue with `α = 1/2`. -/
theorem blendColors_formula_witness :
    (0 ≤ (1/2 : ℚ)) ∧ ((1/2 : ℚ) ≤ 1) ∧
      (blendColors ⟨255, 0, 0⟩ ⟨0, 0, 255⟩ (1/2) =
          ⟨round ((1/2 : ℚ) * ((255 : ℤ) : ℚ) + (1 - 1/2) * ((0 : ℤ) : ℚ)),
            round ((1/2 : ℚ) * ((0 : ℤ) : ℚ) + (1 - 1/2) * ((0 : ℤ) : ℚ)),
            round ((1/2 : ℚ) * ((0 : ℤ) : ℚ) + (1 - 1/2) * ((255 : ℤ) : ℚ))⟩ ∧
        blendColors ⟨255, 0, 0⟩ ⟨0, 0, 255⟩ 1 = ⟨255, 0, 0⟩ ∧
        blendColors ⟨255, 0, 0⟩ ⟨0, 0, 255⟩ 0 = ⟨0, 0, 255⟩ ∧
        blendColors ⟨255, 0, 0⟩ ⟨0, 0, 255⟩ (1/2) = ⟨128, 0, 128⟩) :=
  ⟨by norm_num, by norm_num,
    blendColors_formula ⟨255, 0, 0⟩ ⟨0, 0, 255⟩ (1/2) (by norm_num) (by norm_num)⟩

/-- `hue2rgb` on `[1/6, 1/2]` returns `q`. -/
theorem hue2rgb_eval_q (p q t : ℚ) (h1 : 1/6 ≤ t) (h2 : t ≤ 1/2) :
    hue2rgb p q t = q := by
  simp only [hue2rgb]
  rw [if_neg (by linarith : ¬ t < 0), if_neg (by linarith : ¬ t > 1),
    if_neg (by linarith : ¬ t < 1/6)]
  by_cases h : t < 1/2
  · rw [if_pos h]
  · rw [if_neg h, if_pos (by linarith : t < 2/3)]
    have ht : t = 1/2 := le_antisymm h2 (not_lt.mp h)
    rw [ht]; ring

/-- `hue2rgb` on `[0, 1/6]` is the rising linear segment. -/
theorem hue2rgb_eval_first (p q t : ℚ) (h0 : 0 ≤ t) (h2 : t ≤ 1/6) :
    hue2rgb p q t = p + (q - p) * 6 * t := by
  simp only [hue2rgb]
  rw [if_neg (by linarith : ¬ t < 0), if_neg (by linarith : ¬ t > 1)]
  by_cases h : t < 1/6
  · rw [if_pos h]
  · rw [if_neg h, if_pos (by linarith : t < 1/2)]
    have ht : t = 1/6 := le_antisymm h2 (not_lt.mp h)
    rw [ht]; ring

/-- `hue2rgb` on `[1/2, 2/3]` is the falling linear segment. -/
theorem hue2rgb_eval_third (p q t : ℚ) (h1 : 1/2 ≤ t) (h2 : t ≤ 2/3) :
    hue2rgb p q t = p + (q - p) * (2/3 - t) * 6 := by
  simp only [hue2rgb]
  rw [if_neg (by linarith : ¬ t < 0), if_neg (by linarith : ¬ t > 1),
    if_neg (by linarith : ¬ t < 1/6), if_neg (by linarith : ¬ t < 1/2)]
  by_cases h : t < 2/3
  · rw [if_pos h]
  · rw [if_neg h]
    have ht : t = 2/3 := le_antisymm h2 (not_lt.mp h)
    rw [ht]; ring

/-- `hue2rgb` on `[2/3, 1]` returns `p`. -/
theorem hue2rgb_eval_p_late (p q t : ℚ) (h1 : 2/3 ≤ t) (h2 : t ≤ 1) :
    hue2rgb p q t = p := by
  simp only [hue2rgb]
  rw [if_neg (by linarith : ¬ t < 0), if_neg (by linarith : ¬ t > 1),
    if_neg (by linarith : ¬ t < 1/6), if_neg (by linarith : ¬ t < 1/2),
    if_neg (by linarith : ¬ t < 2/3)]

/-- Negative hue offsets wrap by `+1`. -/
theorem hue2rgb_wrap_neg (p q t : ℚ) (h : t < 0) (h2 : -1 ≤ t) :
    hue2rgb p q t = hue2rgb p q (t + 1) := by
  simp only [hue2rgb]
  rw [if_pos h, if_neg (by linarith : ¬ t + 1 < 0), if_neg (by linarith : ¬ t + 1 > 1)]

/-- Hue offsets above one wrap by `-1`. -/
theorem hue2rgb_wrap_pos (p q t : ℚ) (h : 1 < t) (h2 : t ≤ 2) :
    hue2rgb p q t = hue2rgb p q (t - 1) := by
  simp only [hue2rgb]
  rw [if_neg (by linarith : ¬ t < 0), if_pos h, if_neg (by linarith : ¬ t - 1 < 0),
    if_neg (by linarith : ¬ t - 1 > 1)]

/-- In the chromatic case, the `q` slot of `hslToRgb` reconstructs the channel
maximum of the original color. -/
theorem q_eq_max (r g b M m l d s : ℚ)
    (hr0 : 0 ≤ r) (hr1 : r ≤ 1) (hg0 : 0 ≤ g) (hg1 : g ≤ 1)
    (hb0 : 0 ≤ b) (hb1 : b ≤ 1)
    (hM : M = max r (max g b)) (hm : m = min r (min g b)) (hlt : m < M)
    (hl : l = (M + m) / 2) (hd : d = M - m)
    (hs : s = if l > 1/2 then d / (2 - M - m) else d / (M + m)) :
    (if l < 1/2 then l * (1 + s) else l + s - l * s) = M := by
  have hm0 : 0 ≤ m := by rw [hm]; exact le_min hr0 (le_min hg0 hb0)
  have hM1 : M ≤ 1 := by rw [hM]; exact max_le hr1 (max_le hg1 hb1)
  have hMm0 : 0 < M + m := by linarith
  have h2Mm : 0 < 2 - M - m := by linarith
  by_cases hlo : l < 1/2
  · rw [if_pos hlo, hs, if_neg (by rw [hl] at hlo; push_neg; rw [hl]; linarith), hl, hd]
    field_simp
    ring
  · rw [if_neg hlo]
    by_cases hhi : l > 1/2
    · rw [hs, if_pos hhi, hl, hd]
      field_simp
      ring
    · have hsum : M + m = 1 := by
        have hl2 : l = 1/2 := le_antisymm (not_lt.mp hhi) (not_lt.mp hlo)
        rw [hl] at hl2; linarith
      rw [hs, if_neg hhi, hl, hd, hsum]
      field_simp
      linarith

/-- In the chromatic case, `hue2rgb` at the three hue offsets reconstructs
exactly the three normalized channels. -/
theorem hue_reconstruction (r g b M m d h6 : ℚ)
    (hM : M = max r (max g b)) (hm : m = min r (min g b)) (hlt : m < M)
    (hd : d = M - m)
    (hh6 : h6 = if M = r then (g - b) / d + (if g < b then 6 else 0)
      else if M = g then (b - r) / d + 2 else (r - g) / d + 4) :
    hue2rgb m M (h6 / 6 + 1/3) = r ∧ hue2rgb m M (h6 / 6) = g ∧
      hue2rgb m M (h6 / 6 - 1/3) = b := by
  have hd0 : 0 < d := by rw [hd]; linarith
  have hrM : r ≤ M := by rw [hM]; exact le_max_left _ _
  have hgM : g ≤ M := by rw [hM]; exact le_trans (le_max_left g b) (le_max_right _ _)
  have hbM : b ≤ M := by rw [hM]; exact le_trans (le_max_right g b) (le_max_right _ _)
  have hmr : m ≤ r := by rw [hm]; exact min_le_left _ _
  have hmg : m ≤ g := by rw [hm]; exact le_trans (min_le_right _ _) (min_le_left _ _)
  have hmb : m ≤ b := by rw [hm]; exact le_trans (min_le_right _ _) (min_le_right _ _)
  by_cases hMr : M = r
  · by_cases hgb : g < b
    · -- max is r, and g < b, so the minimum is g
      have hmeq : m = g := by
        rw [hm, min_eq_left (le_of_lt hgb), min_eq_right (by linarith : g ≤ r)]
      have hdeq : d = r - g := by rw [hd, hMr, hmeq]
      have hh6' : h6 = (g - b) / d + 6 := by rw [hh6, if_pos hMr, if_pos hgb]
      have hu0 : (g - b) / d < 0 := div_neg_of_neg_of_pos (by linarith) hd0
      have hu1 : -1 ≤ (g - b) / d := by
        rw [le_div_iff₀ hd0]
        rw [hdeq]
        linarith
      refine ⟨?_, ?_, ?_⟩
      · have e : h6 / 6 + 1/3 = (g - b) / d / 6 + 4/3 := by rw [hh6']; ring
        rw [e, hue2rgb_wrap_pos _ _ _ (by linarith) (by linarith)]
        have e2 : (g - b) / d / 6 + 4/3 - 1 = (g - b) / d / 6 + 1/3 := by ring
        rw [e2, hue2rgb_eval_q _ _ _ (by linarith) (by linarith), hMr]
      · have e : h6 / 6 = (g - b) / d / 6 + 1 := by rw [hh6']; ring
        rw [e, hue2rgb_eval_p_late _ _ _ (by linarith) (by linarith), hmeq]
      · have e : h6 / 6 - 1/3 = (g - b) / d / 6 + 2/3 := by rw [hh6']; ring
        rw [e, hue2rgb_eval_third _ _ _ (by linarith) (by linarith)]
        rw [hmeq, hMr, hdeq]
        have hne : r - g ≠ 0 := by rw [← hdeq]; exact ne_of_gt hd0
        field_simp
        ring
    · -- max is r, and b ≤ g, so the minimum is b
      have hmeq : m = b := by
        rw [hm, min_eq_right (not_lt.mp hgb), min_eq_right (by linarith : b ≤ r)]
      have hdeq : d = r - b := by rw [hd, hMr, hmeq]
      have hh6' : h6 = (g - b) / d := by
        rw [hh6, if_pos hMr, if_neg hgb, add_zero]
      have hu0 : 0 ≤ (g - b) / d := div_nonneg (by linarith [not_lt.mp hgb]) (le_of_lt hd0)
      have hu1 : (g - b) / d ≤ 1 := by
        rw [div_le_one hd0, hdeq]
        linarith
      refine ⟨?_, ?_, ?_⟩
      · have e : h6 / 6 + 1/3 = (g - b) / d / 6 + 1/3 := by rw [hh6']
        rw [e, hue2rgb_eval_q _ _ _ (by linarith) (by linarith), hMr]
      · have e : h6 / 6 = (g - b) / d / 6 := by rw [hh6']
        rw [e, hue2rgb_eval_first _ _ _ (by linarith) (by linarith)]
        rw [hmeq, hMr, hdeq]
        have hne : r - b ≠ 0 := by rw [← hdeq]; exact ne_of_gt hd0
        field_simp
      · have e : h6 / 6 - 1/3 = (g - b) / d / 6 - 1/3 := by rw [hh6']
        rw [e, hue2rgb_wrap_neg _ _ _ (by linarith) (by linarith)]
        have e2 : (g - b) / d / 6 - 1/3 + 1 = (g - b) / d / 6 + 2/3 := by ring
        rw [e2, hue2rgb_eval_p_late _ _ _ (by linarith) (by linarith), hmeq]
  · by_cases hMg : M = g
    · -- max is g
      have hrltM : r < M := lt_of_le_of_ne hrM (fun h => hMr h.symm)
      by_cases hbr : b < r
      · -- minimum is b
        have hmeq : m = b := by
          rw [hm, min_eq_right (by linarith : b ≤ g), min_eq_right (le_of_lt hbr)]
        have hdeq : d = g - b := by rw [hd, hMg, hmeq]
        have hh6' : h6 = (b - r) / d + 2 := by rw [hh6, if_neg hMr, if_pos hMg]
        have hu0 : (b - r) / d < 0 := div_neg_of_neg_of_pos (by linarith) hd0
        have hu1 : -1 ≤ (b - r) / d := by
          rw [le_div_iff₀ hd0, hdeq]
          linarith
        refine ⟨?_, ?_, ?_⟩
        · have e : h6 / 6 + 1/3 = (b - r) / d / 6 + 2/3 := by rw [hh6']; ring
          rw [e, hue2rgb_eval_third _ _ _ (by linarith) (by linarith)]
          rw [hmeq, hMg, hdeq]
          have hne : g - b ≠ 0 := by rw [← hdeq]; exact ne_of_gt hd0
          field_simp
          ring
        · have e : h6 / 6 = (b - r) / d / 6 + 1/3 := by rw [hh6']; ring
          rw [e, hue2rgb_eval_q _ _ _ (by linarith) (by linarith), hMg]
        · have e : h6 / 6 - 1/3 = (b - r) / d / 6 := by rw [hh6']; ring
          rw [e, hue2rgb_wrap_neg _ _ _ (by linarith) (by linarith)]
          have e2 : (b - r) / d / 6 + 1 = (b - r) / d / 6 + 1 := rfl
          rw [hue2rgb_eval_p_late _ _ _ (by linarith) (by linarith), hmeq]
      · -- minimum is r
        have hmeq : m = r := by
          rw [hm, min_eq_right (by linarith : b ≤ g), min_eq_left (not_lt.mp hbr)]
        have hdeq : d = g - r := by rw [hd, hMg, hmeq]
        have hh6' : h6 = (b - r) / d + 2 := by rw [hh6, if_neg hMr, if_pos hMg]
        have hu0 : 0 ≤ (b - r) / d := div_nonneg (by linarith [not_lt.mp hbr]) (le_of_lt hd0)
        have hu1 : (b - r) / d ≤ 1 := by
          rw [div_le_one hd0, hdeq]
          linarith
        refine ⟨?_, ?_, ?_⟩
        · have e : h6 / 6 + 1/3 = (b - r) / d / 6 + 2/3 := by rw [hh6']; ring
          rw [e, hue2rgb_eval_p_late _ _ _ (by linarith) (by linarith), hmeq]
        · have e : h6 / 6 = (b - r) / d / 6 + 1/3 := by rw [hh6']; ring
          rw [e, hue2rgb_eval_q _ _ _ (by linarith) (by linarith), hMg]
        · have e : h6 / 6 - 1/3 = (b - r) / d / 6 := by rw [hh6']; ring
          rw [e, hue2rgb_eval_first _ _ _ (by linarith) (by linarith)]
          rw [hmeq, hMg, hdeq]
          have hne : g - r ≠ 0 := by rw [← hdeq]; exact ne_of_gt hd0
          field_simp
    · -- max is b
      have hMb : M = b := by
        have hmem : M = r ∨ M = g ∨ M = b := by
          rw [hM]
          rcases max_choice r (max g b) with h | h
          · exact Or.inl h
          · rcases max_choice g b with h2 | h2
            · exact Or.inr (Or.inl (by rw [h, h2]))
            · exact Or.inr (Or.inr (by rw [h, h2]))
        rcases hmem with h | h | h
        · exact absurd h hMr
        · exact absurd h hMg
        · exact h
      have hrltM : r < M := lt_of_le_of_ne hrM (fun h => hMr h.symm)
      have hgltM : g < M := lt_of_le_of_ne hgM (fun h => hMg h.symm)
      by_cases hgr : g < r
      · -- minimum is g
        have hmeq : m = g := by
          rw [hm, min_eq_left (by linarith : g ≤ b), min_eq_right (le_of_lt hgr)]
        have hdeq : d = b - g := by rw [hd, hMb, hmeq]
        have hh6' : h6 = (r - g) / d + 4 := by rw [hh6, if_neg hMr, if_neg hMg]
        have hu0 : 0 < (r - g) / d := div_pos (by linarith) hd0
        have hu1 : (r - g) / d ≤ 1 := by
          rw [div_le_one hd0, hdeq]
          linarith
        refine ⟨?_, ?_, ?_⟩
        · have e : h6 / 6 + 1/3 = (r - g) / d / 6 + 1 := by rw [hh6']; ring
          rw [e, hue2rgb_wrap_pos _ _ _ (by linarith) (by linarith)]
          have e2 : (r - g) / d / 6 + 1 - 1 = (r - g) / d / 6 := by ring
          rw [e2, hue2rgb_eval_first _ _ _ (by linarith) (by linarith)]
          rw [hmeq, hMb, hdeq]
          have hne : b - g ≠ 0 := by rw [← hdeq]; exact ne_of_gt hd0
          field_simp
        · have e : h6 / 6 = (r - g) / d / 6 + 2/3 := by rw [hh6']; ring
          rw [e, hue2rgb_eval_p_late _ _ _ (by linarith) (by linarith), hmeq]
        · have e : h6 / 6 - 1/3 = (r - g) / d / 6 + 1/3 := by rw [hh6']; ring
          rw [e, hue2rgb_eval_q _ _ _ (by linarith) (by linarith), hMb]
      · -- minimum is r
        have hmeq : m = r := by
          rw [hm, min_eq_left (by linarith : g ≤ b), min_eq_left (not_lt.mp hgr)]
        have hdeq : d = b - r := by rw [hd, hMb, hmeq]
        have hh6' : h6 = (r - g) / d + 4 := by rw [hh6, if_neg hMr, if_neg hMg]
        have hu0 : (r - g) / d ≤ 0 :=
          div_nonpos_of_nonpos_of_nonneg (by linarith [not_lt.mp hgr]) (le_of_lt hd0)
        have hu1 : -1 ≤ (r - g) / d := by
          rw [le_div_iff₀ hd0, hdeq]
          linarith
        refine ⟨?_, ?_, ?_⟩
        · have e : h6 / 6 + 1/3 = (r - g) / d / 6 + 1 := by rw [hh6']; ring
          rw [e, hue2rgb_eval_p_late _ _ _ (by linarith) (by linarith), hmeq]
        · have e : h6 / 6 = (r - g) / d / 6 + 2/3 := by rw [hh6']; ring
          rw [e, hue2rgb_eval_third _ _ _ (by linarith) (by linarith)]
          rw [hmeq, hMb, hdeq]
          have hne : b - r ≠ 0 := by rw [← hdeq]; exact ne_of_gt hd0
          field_simp
          ring
        · have e : h6 / 6 - 1/3 = (r - g) / d / 6 + 1/3 := by rw [hh6']; ring
          rw [e, hue2rgb_eval_q _ _ _ (by linarith) (by linarith), hMb]

/-- Unfolding of `hslToRgb` on an input built from scaled `[0,1]` components
with nonzero saturation. -/
theorem hslToRgb_scaled (H S L Q : ℚ) (hS : ¬ S = 0)
    (hQ : Q = if L < 1/2 then L * (1 + S) else L + S - L * S) :
    hslToRgb ⟨H * 360, S * 100, L * 100⟩ =
      ⟨round (hue2rgb (2 * L - Q) Q (H + 1/3) * 255),
        round (hue2rgb (2 * L - Q) Q H * 255),
        round (hue2rgb (2 * L - Q) Q (H - 1/3) * 255)⟩ := by
  simp only [hslToRgb]
  have e1 : H * 360 / 360 = H := by field_simp
  have e2 : S * 100 / 100 = S := by field_simp
  have e3 : L * 100 / 100 = L := by field_simp
  rw [e1, e2, e3, if_neg hS, ← hQ]

/-- Rounding undoes the `/255` normalization on integer channels. -/
theorem round_unscale (n : ℤ) : round ((n : ℚ) / 255 * 255) = n := by
  have e : (n : ℚ) / 255 * 255 = (n : ℚ) := by field_simp
  rw [e, round_intCast]

/-- The HSL round trip is exact on valid RGB colors: converting to HSL and
back reproduces the color bit for bit. -/
theorem hslToRgb_rgbToHsl (c : RGB) (hc : ValidRGB c) :
    hslToRgb (rgbToHsl c) = c := by
  obtain ⟨cr, cg, cb⟩ := c
  obtain ⟨hr0', hr1', hg0', hg1', hb0', hb1'⟩ := hc
  simp only [rgbToHsl]
  set r : ℚ := (cr : ℚ) / 255 with hrdef
  set g : ℚ := (cg : ℚ) / 255 with hgdef
  set b : ℚ := (cb : ℚ) / 255 with hbdef
  have hr0 : 0 ≤ r := div_nonneg (by exact_mod_cast hr0') (by norm_num)
  have hr1 : r ≤ 1 := by rw [hrdef, div_le_one (by norm_num)]; exact_mod_cast hr1'
  have hg0 : 0 ≤ g := div_nonneg (by exact_mod_cast hg0') (by norm_num)
  have hg1 : g ≤ 1 := by rw [hgdef, div_le_one (by norm_num)]; exact_mod_cast hg1'
  have hb0 : 0 ≤ b := div_nonneg (by exact_mod_cast hb0') (by norm_num)
  have hb1 : b ≤ 1 := by rw [hbdef, div_le_one (by norm_num)]; exact_mod_cast hb1'
  set M : ℚ := max r (max g b) with hMdef
  set m : ℚ := min r (min g b) with hmdef
  have hrM : r ≤ M := by rw [hMdef]; exact le_max_left _ _
  have hgM : g ≤ M := by rw [hMdef]; exact le_trans (le_max_left g b) (le_max_right _ _)
  have hbM : b ≤ M := by rw [hMdef]; exact le_trans (le_max_right g b) (le_max_right _ _)
  have hmr : m ≤ r := by rw [hmdef]; exact min_le_left _ _
  have hmg : m ≤ g := by rw [hmdef]; exact le_trans (min_le_right _ _) (min_le_left _ _)
  have hmb : m ≤ b := by rw [hmdef]; exact le_trans (min_le_right _ _) (min_le_right _ _)
  by_cases hMm : M = m
  · rw [if_pos hMm]
    have hrm : r ≤ m := hMm ▸ hrM
    have hgm : g ≤ m := hMm ▸ hgM
    have hbm : b ≤ m := hMm ▸ hbM
    have hrg : r = g := le_antisymm (le_trans hrm hmg) (le_trans hgm hmr)
    have hrb : r = b := le_antisymm (le_trans hrm hmb) (le_trans hbm hmr)
    have hMr : M = r := le_antisymm (hMm ▸ hmr) hrM
    have hmr2 : m = r := le_antisymm hmr (hMm ▸ hrM)
    simp only [hslToRgb]
    rw [if_pos (by norm_num : (0 : ℚ) / 100 = 0)]
    have e : (M + m) / 2 * 100 / 100 * 255 = (cr : ℚ) := by
      rw [hMr, hmr2, hrdef]
      field_simp
      ring
    rw [e, round_intCast]
    have hcg : cr = cg := by
      have h255 := hrg
      rw [hrdef, hgdef, div_eq_div_iff (by norm_num) (by norm_num)] at h255
      exact_mod_cast mul_right_cancel₀ (by norm_num : (255 : ℚ) ≠ 0) h255
    have hcb : cr = cb := by
      have h255 := hrb
      rw [hrdef, hbdef, div_eq_div_iff (by norm_num) (by norm_num)] at h255
      exact_mod_cast mul_right_cancel₀ (by norm_num : (255 : ℚ) ≠ 0) h255
    rw [RGB.mk.injEq]
    exact ⟨rfl, hcg, hcb⟩
  · rw [if_neg hMm]
    have hlt : m < M := lt_of_le_of_ne (le_trans hmr hrM) (Ne.symm hMm)
    have hm0 : 0 ≤ m := by rw [hmdef]; exact le_min hr0 (le_min hg0 hb0)
    have hM1 : M ≤ 1 := by rw [hMdef]; exact max_le hr1 (max_le hg1 hb1)
    have hMm0 : 0 < M + m := by linarith
    have h2Mm : 0 < 2 - M - m := by linarith
    have hsne : ¬ (if (M + m) / 2 > 1/2 then (M - m) / (2 - M - m)
        else (M - m) / (M + m)) = 0 := by
      split_ifs with h
      · exact ne_of_gt (div_pos (by linarith) h2Mm)
      · exact ne_of_gt (div_pos (by linarith) hMm0)
    rw [hslToRgb_scaled _ _ _ _ hsne rfl]
    have hQM := q_eq_max r g b M m ((M + m) / 2) (M - m)
      (if (M + m) / 2 > 1/2 then (M - m) / (2 - M - m) else (M - m) / (M + m))
      hr0 hr1 hg0 hg1 hb0 hb1 hMdef hmdef hlt rfl rfl rfl
    rw [hQM]
    have hP : 2 * ((M + m) / 2) - M = m := by ring
    rw [hP]
    obtain ⟨e1, e2, e3⟩ := hue_reconstruction r g b M m (M - m)
      (if M = r then (g - b) / (M - m) + (if g < b then 6 else 0)
        else if M = g then (b - r) / (M - m) + 2 else (r - g) / (M - m) + 4)
      hMdef hmdef hlt rfl rfl
    rw [e1, e2, e3, hrdef, hgdef, hbdef, round_unscale, round_unscale, round_unscale]

/-- The sRGB decode of a zero channel is zero. -/
theorem srgbToLinear_zero : srgbToLinear 0 = 0 := by
  unfold srgbToLinear
  rw [if_pos (by norm_num)]
  norm_num

/-- The sRGB decode of a full channel is one. -/
theorem srgbToLinear_one : srgbToLinear 1 = 1 := by
  unfold srgbToLinear
  rw [if_neg (by norm_num)]
  rw [show ((1 : ℝ) + 0.055) / 1.055 = 1 by norm_num, Real.one_rpow]

/-- On 8-bit channel values the sRGB encode inverts the decode exactly: the
two branch conditions agree at every rational point of the form `n / 255`. -/
theorem linearToSrgb_srgbToLinear (n : ℤ) (h0 : 0 ≤ n) (h1 : n ≤ 255) :
    linearToSrgb (srgbToLinear ((n : ℝ) / 255)) = (n : ℝ) / 255 := by
  have hn0 : (0 : ℝ) ≤ (n : ℝ) := by exact_mod_cast h0
  by_cases hn : (n : ℝ) / 255 ≤ 0.04045
  · have hn10 : (n : ℝ) ≤ 10 := by
      have hlt : (n : ℝ) < 11 := by nlinarith
      have hint : n < 11 := by exact_mod_cast hlt
      have hle : n ≤ 10 := by omega
      exact_mod_cast hle
    have hle : (n : ℝ) / 255 / 12.92 ≤ 0.0031308 := by
      rw [div_div, div_le_iff₀ (by norm_num : (0 : ℝ) < 255 * 12.92)]
      nlinarith
    have hsrgb : srgbToLinear ((n : ℝ) / 255) = (n : ℝ) / 255 / 12.92 := by
      unfold srgbToLinear
      rw [if_pos hn]
    rw [hsrgb]
    unfold linearToSrgb
    rw [if_pos hle]
    field_simp
    ring
  · push_neg at hn
    have hn11 : (11 : ℝ) ≤ (n : ℝ) := by
      have hgt : (10 : ℤ) < n := by
        by_contra hcon
        push_neg at hcon
        have hc : (n : ℝ) ≤ 10 := by exact_mod_cast hcon
        nlinarith
      have hge : (11 : ℤ) ≤ n := by omega
      exact_mod_cast hge
    have hbase : (1001 / 10761 : ℝ) ≤ ((n : ℝ) / 255 + 0.055) / 1.055 := by
      rw [le_div_iff₀ (by norm_num : (0 : ℝ) < 1.055)]
      linarith
    have hbase0 : (0 : ℝ) ≤ ((n : ℝ) / 255 + 0.055) / 1.055 := by positivity
    have hy : (0.0031308 : ℝ) < (((n : ℝ) / 255 + 0.055) / 1.055) ^ (2.4 : ℝ) := by
      have hm : ((1001 / 10761 : ℝ)) ^ (2.4 : ℝ) ≤
          (((n : ℝ) / 255 + 0.055) / 1.055) ^ (2.4 : ℝ) :=
        Real.rpow_le_rpow (by norm_num) hbase (by norm_num)
      have h5 : ((1001 / 10761 : ℝ) ^ (2.4 : ℝ)) ^ (5 : ℕ) = (1001 / 10761 : ℝ) ^ (12 : ℕ) := by
        rw [← Real.rpow_natCast ((1001 / 10761 : ℝ) ^ (2.4 : ℝ)) 5,
          ← Real.rpow_mul (by norm_num), ← Real.rpow_natCast (1001 / 10761 : ℝ) 12]
        norm_num
      have hlt5 : ((0.0031308 : ℝ)) ^ (5 : ℕ) < ((1001 / 10761 : ℝ) ^ (2.4 : ℝ)) ^ (5 : ℕ) := by
        rw [h5]
        norm_num
      have h2 : (0.0031308 : ℝ) < (1001 / 10761 : ℝ) ^ (2.4 : ℝ) :=
        lt_of_pow_lt_pow_left₀ 5 (Real.rpow_nonneg (by norm_num) _) hlt5
      linarith
    have hsrgb : srgbToLinear ((n : ℝ) / 255) =
        (((n : ℝ) / 255 + 0.055) / 1.055) ^ (2.4 : ℝ) := by
      unfold srgbToLinear
      rw [if_neg (by linarith)]
    rw [hsrgb]
    unfold linearToSrgb
    rw [if_neg (by linarith)]
    have hcomp : ((((n : ℝ) / 255 + 0.055) / 1.055) ^ (2.4 : ℝ)) ^ ((1 : ℝ) / 2.4) =
        ((n : ℝ) / 255 + 0.055) / 1.055 := by
      rw [← Real.rpow_mul hbase0, show (2.4 : ℝ) * (1 / 2.4) = 1 by norm_num, Real.rpow_one]
    rw [hcomp]
    field_simp
    ring

/-- Cubing inverts the cube root. -/
theorem cbrt_cube (x : ℝ) : cbrt x ^ (3 : ℕ) = x := by
  unfold cbrt
  split_ifs with h
  · rw [← Real.rpow_natCast (x ^ ((1 : ℝ) / 3)) 3, ← Real.rpow_mul h]
    norm_num
  · push_neg at h
    rw [Odd.neg_pow (by decide : Odd 3)]
    rw [← Real.rpow_natCast ((-x) ^ ((1 : ℝ) / 3)) 3, ← Real.rpow_mul (by linarith)]
    norm_num

/-- The cube root of zero. -/
theorem cbrt_zero : cbrt 0 = 0 := by
  unfold cbrt
  rw [if_pos le_rfl, Real.zero_rpow (by norm_num)]

/-- The cube root of one. -/
theorem cbrt_one : cbrt 1 = 1 := by
  unfold cbrt
  rw [if_pos zero_le_one, Real.one_rpow]

/-- `M1` is invertible: its inverse cancels it on vectors. -/
theorem oklabM1_inv_mulVec (v : Fin 3 → ℝ) :
    oklabM1⁻¹.mulVec (oklabM1.mulVec v) = v := by
  rw [Matrix.mulVec_mulVec, Matrix.nonsing_inv_mul, Matrix.one_mulVec]
  rw [isUnit_iff_ne_zero]
  simp [oklabM1, Matrix.det_fin_three]
  norm_num

/-- `M2` is invertible: its inverse cancels it on vectors. -/
theorem oklabM2_inv_mulVec (v : Fin 3 → ℝ) :
    oklabM2⁻¹.mulVec (oklabM2.mulVec v) = v := by
  rw [Matrix.mulVec_mulVec, Matrix.nonsing_inv_mul, Matrix.one_mulVec]
  rw [isUnit_iff_ne_zero]
  simp [oklabM2, Matrix.det_fin_three]
  norm_num

/-- Eta law for length-3 vectors. -/
theorem vec3_eta (v : Fin 3 → ℝ) : (![v 0, v 1, v 2] : Fin 3 → ℝ) = v := by
  funext i
  fin_cases i <;> simp

/-- Depolarizing the normalized degree hue recovers the first Cartesian
component. -/
theorem polar_cos (a b : ℝ) :
    Real.sqrt (a ^ 2 + b ^ 2) *
      Real.cos ((if Complex.arg ⟨a, b⟩ * 180 / Real.pi < 0
        then Complex.arg ⟨a, b⟩ * 180 / Real.pi + 360
        else Complex.arg ⟨a, b⟩ * 180 / Real.pi) * Real.pi / 180) = a := by
  have hpi := Real.pi_ne_zero
  have hcos : Real.cos ((if Complex.arg ⟨a, b⟩ * 180 / Real.pi < 0
      then Complex.arg ⟨a, b⟩ * 180 / Real.pi + 360
      else Complex.arg ⟨a, b⟩ * 180 / Real.pi) * Real.pi / 180) =
      Real.cos (Complex.arg ⟨a, b⟩) := by
    split_ifs with h
    · rw [show (Complex.arg ⟨a, b⟩ * 180 / Real.pi + 360) * Real.pi / 180 =
        Complex.arg ⟨a, b⟩ + 2 * Real.pi by field_simp; ring]
      exact Real.cos_add_two_pi _
    · rw [show Complex.arg ⟨a, b⟩ * 180 / Real.pi * Real.pi / 180 =
        Complex.arg ⟨a, b⟩ by field_simp]
  rw [hcos]
  by_cases hz : (⟨a, b⟩ : ℂ) = 0
  · have ha : a = 0 := congrArg Complex.re hz
    have hb : b = 0 := congrArg Complex.im hz
    rw [ha, hb]
    simp
  · have habs : Real.sqrt (a ^ 2 + b ^ 2) = Complex.abs ⟨a, b⟩ := by
      rw [Complex.abs_apply, Complex.normSq_mk]
      ring_nf
    rw [habs, Complex.cos_arg hz]
    have hre : (⟨a, b⟩ : ℂ).re = a := rfl
    rw [hre]
    field_simp [Complex.abs.ne_zero hz]

/-- Depolarizing the normalized degree hue recovers the second Cartesian
component. -/
theorem polar_sin (a b : ℝ) :
    Real.sqrt (a ^ 2 + b ^ 2) *
      Real.sin ((if Complex.arg ⟨a, b⟩ * 180 / Real.pi < 0
        then Complex.arg ⟨a, b⟩ * 180 / Real.pi + 360
        else Complex.arg ⟨a, b⟩ * 180 / Real.pi) * Real.pi / 180) = b := by
  have hpi := Real.pi_ne_zero
  have hsin : Real.sin ((if Complex.arg ⟨a, b⟩ * 180 / Real.pi < 0
      then Complex.arg ⟨a, b⟩ * 180 / Real.pi + 360
      else Complex.arg ⟨a, b⟩ * 180 / Real.pi) * Real.pi / 180) =
      Real.sin (Complex.arg ⟨a, b⟩) := by
    split_ifs with h
    · rw [show (Complex.arg ⟨a, b⟩ * 180 / Real.pi + 360) * Real.pi / 180 =
        Complex.arg ⟨a, b⟩ + 2 * Real.pi by field_simp; ring]
      exact Real.sin_add_two_pi _
    · rw [show Complex.arg ⟨a, b⟩ * 180 / Real.pi * Real.pi / 180 =
        Complex.arg ⟨a, b⟩ by field_simp]
  rw [hsin]
  by_cases hz : (⟨a, b⟩ : ℂ) = 0
  · have ha : a = 0 := congrArg Complex.re hz
    have hb : b = 0 := congrArg Complex.im hz
    rw [ha, hb]
    simp
  · have habs : Real.sqrt (a ^ 2 + b ^ 2) = Complex.abs ⟨a, b⟩ := by
      rw [Complex.abs_apply, Complex.normSq_mk]
      ring_nf
    rw [habs, Complex.sin_arg]
    have him : (⟨a, b⟩ : ℂ).im = b := rfl
    rw [him]
    field_simp [Complex.abs.ne_zero hz]

/-- Clamping is the identity on channels already in `[0, 255]`. -/
theorem clampChannel_eq (n : ℤ) (h0 : 0 ≤ n) (h1 : n ≤ 255) :
    clampChannel n = n := by
  unfold clampChannel
  rw [min_eq_right h1, max_eq_right h0]

/-- Real-valued version of `round_unscale`. -/
theorem round_unscale_real (n : ℤ) : round ((n : ℝ) / 255 * 255) = n := by
  have e : (n : ℝ) / 255 * 255 = (n : ℝ) := by field_simp
  rw [e, round_intCast]

/-- The OKLCH round trip is exact on valid RGB colors: the modelled inverse
chain undoes the forward chain before quantization, and rounding recovers the
integer channels. -/
theorem oklchToRgb_rgbToOklch (c : RGB) (hc : ValidRGB c) :
    oklchToRgb (rgbToOklch c) = c := by
  obtain ⟨cr, cg, cb⟩ := c
  obtain ⟨hr0, hr1, hg0, hg1, hb0, hb1⟩ := hc
  simp only [rgbToOklch, oklchToRgb]
  set lin : Fin 3 → ℝ :=
    ![srgbToLinear ((cr : ℝ) / 255), srgbToLinear ((cg : ℝ) / 255),
      srgbToLinear ((cb : ℝ) / 255)] with hlin
  set L := oklabM2.mulVec
    ![cbrt ((oklabM1.mulVec lin) 0), cbrt ((oklabM1.mulVec lin) 1),
      cbrt ((oklabM1.mulVec lin) 2)] with hL
  rw [polar_cos (L 1) (L 2), polar_sin (L 1) (L 2)]
  rw [vec3_eta L, hL, oklabM2_inv_mulVec]
  have hcube : (![ (![cbrt ((oklabM1.mulVec lin) 0), cbrt ((oklabM1.mulVec lin) 1),
      cbrt ((oklabM1.mulVec lin) 2)] : Fin 3 → ℝ) 0 ^ 3,
      (![cbrt ((oklabM1.mulVec lin) 0), cbrt ((oklabM1.mulVec lin) 1),
      cbrt ((oklabM1.mulVec lin) 2)] : Fin 3 → ℝ) 1 ^ 3,
      (![cbrt ((oklabM1.mulVec lin) 0), cbrt ((oklabM1.mulVec lin) 1),
      cbrt ((oklabM1.mulVec lin) 2)] : Fin 3 → ℝ) 2 ^ 3] : Fin 3 → ℝ) =
      oklabM1.mulVec lin := by
    funext i
    fin_cases i <;> simp [cbrt_cube]
  rw [hcube, oklabM1_inv_mulVec]
  have h0e : lin 0 = srgbToLinear ((cr : ℝ) / 255) := by rw [hlin]; rfl
  have h1e : lin 1 = srgbToLinear ((cg : ℝ) / 255) := by rw [hlin]; rfl
  have h2e : lin 2 = srgbToLinear ((cb : ℝ) / 255) := by rw [hlin]; rfl
  rw [h0e, h1e, h2e, linearToSrgb_srgbToLinear cr hr0 hr1,
    linearToSrgb_srgbToLinear cg hg0 hg1, linearToSrgb_srgbToLinear cb hb0 hb1,
    round_unscale_real, round_unscale_real, round_unscale_real,
    clampChannel_eq cr hr0 hr1, clampChannel_eq cg hg0 hg1, clampChannel_eq cb hb0 hb1]

/-- The OKLCH lightness of pure black is exactly 0. -/
theorem rgbToOklch_black_l : (rgbToOklch ⟨0, 0, 0⟩).l = 0 := by
  have h0 : (((0 : ℤ) : ℝ)) / 255 = 0 := by norm_num
  simp only [rgbToOklch, h0, srgbToLinear_zero]
  simp [oklabM1, oklabM2, Matrix.mulVec, Matrix.dotProduct, Fin.sum_univ_three, cbrt_zero]

/-- The OKLCH lightness of pure white is within 0.01 of 1. -/
theorem rgbToOklch_white_l : |(rgbToOklch ⟨255, 255, 255⟩).l - 1| ≤ 0.01 := by
  have h1 : (((255 : ℤ) : ℝ)) / 255 = 1 := by norm_num
  simp only [rgbToOklch, h1, srgbToLinear_one]
  have e0 : (oklabM1.mulVec ![(1 : ℝ), 1, 1]) 0 = 1 := by
    simp [oklabM1, Matrix.mulVec, Matrix.dotProduct, Fin.sum_univ_three]
    norm_num
  have e1 : (oklabM1.mulVec ![(1 : ℝ), 1, 1]) 1 = 0.9999999999 := by
    simp [oklabM1, Matrix.mulVec, Matrix.dotProduct, Fin.sum_univ_three]
    norm_num
  have e2 : (oklabM1.mulVec ![(1 : ℝ), 1, 1]) 2 = 1 := by
    simp [oklabM1, Matrix.mulVec, Matrix.dotProduct, Fin.sum_univ_three]
    norm_num
  rw [e0, e1, e2, cbrt_one]
  have hm1 : (0.9999999999 : ℝ) ≤ cbrt 0.9999999999 := by
    unfold cbrt
    rw [if_pos (by norm_num)]
    nth_rewrite 1 [show (0.9999999999 : ℝ) = (0.9999999999 : ℝ) ^ (1 : ℝ) from
      (Real.rpow_one _).symm]
    exact Real.rpow_le_rpow_of_exponent_ge (by norm_num) (by norm_num) (by norm_num)
  have hm2 : cbrt 0.9999999999 ≤ 1 := by
    unfold cbrt
    rw [if_pos (by norm_num)]
    exact Real.rpow_le_one (by norm_num) (by norm_num) (by norm_num)
  have eL : (oklabM2.mulVec ![(1 : ℝ), cbrt 0.9999999999, 1]) 0 =
      0.2104542553 + 0.7936177850 * cbrt 0.9999999999 - 0.0040720468 := by
    simp [oklabM2, Matrix.mulVec, Matrix.dotProduct, Fin.sum_univ_three]
    ring
  rw [eL, abs_le]
  constructor
  · nlinarith
  · nlinarith

/-- C8: for every valid RGB color the HSL round trip and the OKLCH round trip
reproduce the color within ±1 integer unit per channel (here: exactly), and
`rgbToOklch` maps pure black to lightness ≈ 0 and pure white to
lightness ≈ 1. -/
theorem color_roundtrips (C : RGB) (h : ValidRGB C) :
    (|(hslToRgb (rgbToHsl C)).r - C.r| ≤ 1 ∧ |(hslToRgb (rgbToHsl C)).g - C.g| ≤ 1 ∧
      |(hslToRgb (rgbToHsl C)).b - C.b| ≤ 1) ∧
    (|(oklchToRgb (rgbToOklch C)).r - C.r| ≤ 1 ∧ |(oklchToRgb (rgbToOklch C)).g - C.g| ≤ 1 ∧
      |(oklchToRgb (rgbToOklch C)).b - C.b| ≤ 1) ∧
    |(rgbToOklch ⟨0, 0, 0⟩).l - 0| ≤ 0.01 ∧ |(rgbToOklch ⟨255, 255, 255⟩).l - 1| ≤ 0.01 := by
  rw [hslToRgb_rgbToHsl C h, oklchToRgb_rgbToOklch C h]
  refine ⟨⟨?_, ?_, ?_⟩, ⟨?_, ?_, ?_⟩, ?_, rgbToOklch_white_l⟩ <;>
    first
      | (rw [sub_self]; norm_num)
      | (rw [rgbToOklch_black_l]; norm_num)

/-- Witness for C8 at the color `{10, 135, 240}` (channels on both gamma
branches). -/
theorem color_roundtrips_witness :
    ValidRGB ⟨10, 135, 240⟩ ∧
      ((|(hslToRgb (rgbToHsl ⟨10, 135, 240⟩)).r - (10 : ℤ)| ≤ 1 ∧
          |(hslToRgb (rgbToHsl ⟨10, 135, 240⟩)).g - (135 : ℤ)| ≤ 1 ∧
          |(hslToRgb (rgbToHsl ⟨10, 135, 240⟩)).b - (240 : ℤ)| ≤ 1) ∧
        (|(oklchToRgb (rgbToOklch ⟨10, 135, 240⟩)).r - (10 : ℤ)| ≤ 1 ∧
          |(oklchToRgb (rgbToOklch ⟨10, 135, 240⟩)).g - (135 : ℤ)| ≤ 1 ∧
          |(oklchToRgb (rgbToOklch ⟨10, 135, 240⟩)).b - (240 : ℤ)| ≤ 1) ∧
        |(rgbToOklch ⟨0, 0, 0⟩).l - 0| ≤ 0.01 ∧
        |(rgbToOklch ⟨255, 255, 255⟩).l - 1| ≤ 0.01) :=
  ⟨by decide, color_roundtrips ⟨10, 135, 240⟩ (by decide)⟩

/-- The bisection loop executes at most as many iterations as it has fuel. -/
theorem searchLoop_count_le (g : ℝ → ℝ) (t : ℝ) (d : Direction) (fuel : ℕ) :
    ∀ minL maxL : ℝ, (searchLoop g t d fuel minL maxL).2.2 ≤ fuel := by
  induction fuel with
  | zero => intro minL maxL; simp [searchLoop]
  | succ n ih =>
    intro minL maxL
    cases d <;> simp only [searchLoop] <;> split_ifs <;> simp <;> exact ih _ _

/-- The bisection loop stops immediately once the bracket width is at most
0.001. -/
theorem searchLoop_stop (g : ℝ → ℝ) (t : ℝ) (d : Direction) (minL maxL : ℝ)
    (h : maxL - minL ≤ 0.001) :
    searchLoop g t d 20 minL maxL = (minL, maxL, 0) := by
  rw [show (20 : ℕ) = 19 + 1 from rfl]
  simp only [searchLoop]
  rw [if_neg (by linarith)]

/-- C6: each binary search over lightness terminates: for every input color,
fixed counterpart, target ratio, direction and bracket it performs at most 20
iterations, and it stops with no further iteration as soon as the bracket
width is no greater than 0.001. -/
theorem searchLoop_terminates (o : OKLCH) (fixedColor : RGB) (targetRatio : ℝ)
    (d : Direction) (adjustBg : Bool) (minL maxL minL' maxL' : ℝ)
    (h : maxL' - minL' ≤ 0.001) :
    (searchLoop (achievedRatio o fixedColor adjustBg) targetRatio d 20 minL maxL).2.2 ≤ 20 ∧
      searchLoop (achievedRatio o fixedColor adjustBg) targetRatio d 20 minL' maxL' =
        (minL', maxL', 0) :=
  ⟨searchLoop_count_le _ _ _ _ _ _, searchLoop_stop _ _ _ _ _ h⟩

/-- Witness for C6 on the unit bracket and a degenerate 0.0005-wide bracket. -/
theorem searchLoop_terminates_witness :
    ((0.0005 : ℝ) - 0 ≤ 0.001) ∧
      ((searchLoop (achievedRatio ⟨0, 0, 0⟩ ⟨0, 0, 0⟩ false) 4.5 .lighter 20 0 1).2.2 ≤ 20 ∧
        searchLoop (achievedRatio ⟨0, 0, 0⟩ ⟨0, 0, 0⟩ false) 4.5 .lighter 20 0 0.0005 =
          (0, 0.0005, 0)) :=
  ⟨by norm_num,
    searchLoop_terminates ⟨0, 0, 0⟩ ⟨0, 0, 0⟩ 4.5 .lighter false 0 1 0 0.0005 (by norm_num)⟩

/-- C7: when the pair already meets the target ratio, each side's suggestion
list is exactly the single no-op entry tagged `original` with zero percent
change and the unchanged color, and both best suggestions are `none`. -/
theorem getSuggestions_noop (fg bg : RGB) (lvl : Level) (sz : TextSize)
    (h : calculateContrastRatio fg bg ≥ requiredRatioFor lvl sz) :
    (getSuggestions fg bg lvl sz).suggestions.foreground =
      [⟨fg, rgbToHex fg, calculateContrastRatio fg bg, .original, 0⟩] ∧
    (getSuggestions fg bg lvl sz).suggestions.background =
      [⟨bg, rgbToHex bg, calculateContrastRatio fg bg, .original, 0⟩] ∧
    (getSuggestions fg bg lvl sz).bestForeground = none ∧
    (getSuggestions fg bg lvl sz).bestBackground = none := by
  have hfg : findMinimumAdjustment fg bg (requiredRatioFor lvl sz) false =
      [⟨fg, rgbToHex fg, calculateContrastRatio fg bg, .original, 0⟩] := by
    simp only [findMinimumAdjustment, Bool.false_eq_true, if_false]
    rw [if_pos h]
  have hbg : findMinimumAdjustment bg fg (requiredRatioFor lvl sz) true =
      [⟨bg, rgbToHex bg, calculateContrastRatio fg bg, .original, 0⟩] := by
    simp only [findMinimumAdjustment, if_true]
    rw [if_pos h]
  refine ⟨?_, ?_, ?_, ?_⟩ <;>
    simp [getSuggestions, hfg, hbg, List.find?]

/-- The AA/normal target ratio is 4.5. -/
theorem requiredRatioFor_AA_normal : requiredRatioFor .AA .normal = 4.5 := rfl

/-- Witness for C7: `getSuggestions(black, white, AA, normal)` proposes no
change. -/
theorem getSuggestions_noop_witness :
    (calculateContrastRatio ⟨0, 0, 0⟩ ⟨255, 255, 255⟩ ≥ requiredRatioFor .AA .normal) ∧
      ((getSuggestions ⟨0, 0, 0⟩ ⟨255, 255, 255⟩ .AA .normal).suggestions.foreground =
          [⟨⟨0, 0, 0⟩, rgbToHex ⟨0, 0, 0⟩,
            calculateContrastRatio ⟨0, 0, 0⟩ ⟨255, 255, 255⟩, .original, 0⟩] ∧
        (getSuggestions ⟨0, 0, 0⟩ ⟨255, 255, 255⟩ .AA .normal).suggestions.background =
          [⟨⟨255, 255, 255⟩, rgbToHex ⟨255, 255, 255⟩,
            calculateContrastRatio ⟨0, 0, 0⟩ ⟨255, 255, 255⟩, .original, 0⟩] ∧
        (getSuggestions ⟨0, 0, 0⟩ ⟨255, 255, 255⟩ .AA .normal).bestForeground = none ∧
        (getSuggestions ⟨0, 0, 0⟩ ⟨255, 255, 255⟩ .AA .normal).bestBackground = none) := by
  have h : calculateContrastRatio ⟨0, 0, 0⟩ ⟨255, 255, 255⟩ ≥ requiredRatioFor .AA .normal := by
    rw [calculateContrastRatio_black_white, requiredRatioFor_AA_normal]
    norm_num
  exact ⟨h, getSuggestions_noop ⟨0, 0, 0⟩ ⟨255, 255, 255⟩ .AA .normal h⟩

/-- Any suggestion returned by the bisection search meets the target ratio
against the fixed counterpart (in the search's orientation) and carries the
direction's tag: the search re-validates before returning. -/
theorem findLightnessForContrast_some (o : OKLCH) (fixedColor : RGB) (t : ℝ)
    (d : Direction) (aBg : Bool) (s : ColorSuggestion)
    (h : findLightnessForContrast o fixedColor t d aBg = some s) :
    (if aBg then calculateContrastRatio fixedColor s.color
      else calculateContrastRatio s.color fixedColor) ≥ t ∧
      s.adjustment = d.toAdjustment := by
  simp only [findLightnessForContrast] at h
  split_ifs at h with hfin
  · rw [Option.some.injEq] at h
    subst h
    refine ⟨?_, rfl⟩
    simp only [achievedRatio] at hfin
    exact hfin

/-- Every non-`original` member of a `findMinimumAdjustment` list meets the
target ratio in the side's orientation. -/
theorem findMinimumAdjustment_mem (cta fixedColor : RGB) (t : ℝ) (aBg : Bool)
    (s : ColorSuggestion) (hs : s ∈ findMinimumAdjustment cta fixedColor t aBg)
    (hna : s.adjustment ≠ Adjustment.original) :
    (if aBg then calculateContrastRatio fixedColor s.color
      else calculateContrastRatio s.color fixedColor) ≥ t := by
  simp only [findMinimumAdjustment] at hs
  cases aBg
  case false =>
    simp only [Bool.false_eq_true, if_false] at hs ⊢
    split_ifs at hs with horig
    · rw [List.mem_singleton] at hs
      rw [hs] at hna
      exact absurd rfl hna
    · unfold sortByPercentChange at hs
      rw [(List.mergeSort_perm _ _).mem_iff, List.mem_append] at hs
      rcases hs with hs | hs <;>
        rw [Option.mem_toList, Option.mem_def] at hs <;>
        simpa using (findLightnessForContrast_some _ _ _ _ _ _ hs).1
  case true =>
    simp only [if_true] at hs ⊢
    split_ifs at hs with horig
    · rw [List.mem_singleton] at hs
      rw [hs] at hna
      exact absurd rfl hna
    · unfold sortByPercentChange at hs
      rw [(List.mergeSort_perm _ _).mem_iff, List.mem_append] at hs
      rcases hs with hs | hs <;>
        rw [Option.mem_toList, Option.mem_def] at hs <;>
        simpa using (findLightnessForContrast_some _ _ _ _ _ _ hs).1

/-- C4: whenever `getSuggestions` returns a non-null `bestForeground`
(respectively `bestBackground`), the contrast ratio of the suggested color
against the unchanged counterpart is at least the target ratio for the
requested level and text size. -/
theorem getSuggestions_validity (fg bg : RGB) (lvl : Level) (sz : TextSize) :
    ((getSuggestions fg bg lvl sz).bestForeground.elim True (fun s =>
        calculateContrastRatio s.color bg ≥ requiredRatioFor lvl sz)) ∧
      ((getSuggestions fg bg lvl sz).bestBackground.elim True (fun s =>
        calculateContrastRatio fg s.color ≥ requiredRatioFor lvl sz)) := by
  constructor
  · cases hfind : (getSuggestions fg bg lvl sz).bestForeground with
    | none => exact trivial
    | some s =>
      simp only [Option.elim]
      simp only [getSuggestions] at hfind
      have hmem := List.mem_of_find?_eq_some hfind
      have hp := List.find?_some hfind
      have hna : s.adjustment ≠ Adjustment.original := of_decide_eq_true hp
      have hv := findMinimumAdjustment_mem fg bg (requiredRatioFor lvl sz) false s hmem hna
      simpa using hv
  · cases hfind : (getSuggestions fg bg lvl sz).bestBackground with
    | none => exact trivial
    | some s =>
      simp only [Option.elim]
      simp only [getSuggestions] at hfind
      have hmem := List.mem_of_find?_eq_some hfind
      have hp := List.find?_some hfind
      have hna : s.adjustment ≠ Adjustment.original := of_decide_eq_true hp
      have hv := findMinimumAdjustment_mem bg fg (requiredRatioFor lvl sz) true s hmem hna
      simpa using hv

/-- The bisection loop keeps its bracket nested in the initial bracket. -/
theorem searchLoop_bounds (g : ℝ → ℝ) (t : ℝ) (d : Direction) (fuel : ℕ) :
    ∀ minL maxL : ℝ, minL ≤ maxL →
      minL ≤ (searchLoop g t d fuel minL maxL).1 ∧
      (searchLoop g t d fuel minL maxL).1 ≤ (searchLoop g t d fuel minL maxL).2.1 ∧
      (searchLoop g t d fuel minL maxL).2.1 ≤ maxL := by
  induction fuel with
  | zero =>
    intro minL maxL h
    simp only [searchLoop]
    exact ⟨le_refl _, h, le_refl _⟩
  | succ n ih =>
    intro minL maxL h
    cases d <;> simp only [searchLoop] <;> split_ifs with hw hr
    · obtain ⟨a1, a2, a3⟩ := ih minL ((minL + maxL) / 2) (by linarith)
      exact ⟨a1, a2, by linarith⟩
    · obtain ⟨a1, a2, a3⟩ := ih ((minL + maxL) / 2) maxL (by linarith)
      exact ⟨by linarith, a2, a3⟩
    · exact ⟨le_refl _, h, le_refl _⟩
    · obtain ⟨a1, a2, a3⟩ := ih ((minL + maxL) / 2) maxL (by linarith)
      exact ⟨by linarith, a2, a3⟩
    · obtain ⟨a1, a2, a3⟩ := ih minL ((minL + maxL) / 2) (by linarith)
      exact ⟨a1, a2, by linarith⟩
    · exact ⟨le_refl _, h, le_refl _⟩

/-- The final bracket width is at most the tolerance or the fully-halved
initial width, whichever is larger. -/
theorem searchLoop_width (g : ℝ → ℝ) (t : ℝ) (d : Direction) (fuel : ℕ) :
    ∀ minL maxL : ℝ,
      (searchLoop g t d fuel minL maxL).2.1 - (searchLoop g t d fuel minL maxL).1 ≤
        max 0.001 ((maxL - minL) / 2 ^ fuel) := by
  induction fuel with
  | zero =>
    intro minL maxL
    simp only [searchLoop, pow_zero]
    exact le_max_of_le_right (by linarith)
  | succ n ih =>
    intro minL maxL
    have key : ∀ a b : ℝ, b - a = (maxL - minL) / 2 →
        (searchLoop g t d n a b).2.1 - (searchLoop g t d n a b).1 ≤
          max 0.001 ((maxL - minL) / 2 ^ (n + 1)) := by
      intro a b hab
      have e : (b - a) / 2 ^ n = (maxL - minL) / 2 ^ (n + 1) := by
        rw [hab, pow_succ]
        ring
      have := ih a b
      rw [e] at this
      exact this
    cases d <;> simp only [searchLoop] <;> split_ifs with hw hr
    · exact key _ _ (by ring)
    · exact key _ _ (by ring)
    · exact le_max_of_le_left (by linarith)
    · exact key _ _ (by ring)
    · exact key _ _ (by ring)
    · exact le_max_of_le_left (by linarith)

/-- Invariant of the `'lighter'` search: if the ratio is nondecreasing on the
bracket, every lightness in `[l0, 1]` meeting the target stays at or above
the final lower bound. -/
theorem searchLoop_lighter_inv (g : ℝ → ℝ) (t : ℝ) (l0 : ℝ)
    (hmono : ∀ l1 l2, l0 ≤ l1 → l1 ≤ l2 → l2 ≤ 1 → g l1 ≤ g l2) (fuel : ℕ) :
    ∀ minL maxL : ℝ, l0 ≤ minL → maxL ≤ 1 → minL ≤ maxL →
      (∀ l, l0 ≤ l → l ≤ 1 → g l ≥ t → minL ≤ l) →
      ∀ l, l0 ≤ l → l ≤ 1 → g l ≥ t → (searchLoop g t .lighter fuel minL maxL).1 ≤ l := by
  induction fuel with
  | zero =>
    intro minL maxL _ _ _ hinv l hl0 hl1 hgl
    simp only [searchLoop]
    exact hinv l hl0 hl1 hgl
  | succ n ih =>
    intro minL maxL hlo hhi hmm hinv l hl0 hl1 hgl
    simp only [searchLoop]
    split_ifs with hw hr
    · exact ih minL ((minL + maxL) / 2) hlo (by linarith) (by linarith) hinv l hl0 hl1 hgl
    · refine ih ((minL + maxL) / 2) maxL (by linarith) hhi (by linarith) ?_ l hl0 hl1 hgl
      intro l' hl0' hl1' hgl'
      by_contra hcon
      push_neg at hcon
      have hle : g l' ≤ g ((minL + maxL) / 2) :=
        hmono l' ((minL + maxL) / 2) hl0' (le_of_lt hcon) (by linarith)
      push_neg at hr
      linarith
    · exact hinv l hl0 hl1 hgl

/-- Invariant of the `'darker'` search: if the ratio is nonincreasing on the
bracket, every lightness in `[0, l0]` meeting the target stays at or below
the final upper bound. -/
theorem searchLoop_darker_inv (g : ℝ → ℝ) (t : ℝ) (l0 : ℝ)
    (hmono : ∀ l1 l2, 0 ≤ l1 → l1 ≤ l2 → l2 ≤ l0 → g l2 ≤ g l1) (fuel : ℕ) :
    ∀ minL maxL : ℝ, 0 ≤ minL → maxL ≤ l0 → minL ≤ maxL →
      (∀ l, 0 ≤ l → l ≤ l0 → g l ≥ t → l ≤ maxL) →
      ∀ l, 0 ≤ l → l ≤ l0 → g l ≥ t → l ≤ (searchLoop g t .darker fuel minL maxL).2.1 := by
  induction fuel with
  | zero =>
    intro minL maxL _ _ _ hinv l hl0 hl1 hgl
    simp only [searchLoop]
    exact hinv l hl0 hl1 hgl
  | succ n ih =>
    intro minL maxL hlo hhi hmm hinv l hl0 hl1 hgl
    simp only [searchLoop]
    split_ifs with hw hr
    · exact ih ((minL + maxL) / 2) maxL (by linarith) hhi (by linarith) hinv l hl0 hl1 hgl
    · refine ih minL ((minL + maxL) / 2) hlo (by linarith) (by linarith) ?_ l hl0 hl1 hgl
      intro l' hl0' hl1' hgl'
      by_contra hcon
      push_neg at hcon
      have hle : g l' ≤ g ((minL + maxL) / 2) :=
        hmono ((minL + maxL) / 2) l' (by linarith) (le_of_lt hcon) hl1'
      push_neg at hr
      linarith
    · exact hinv l hl0 hl1 hgl

/-- C5: under the precondition that the achieved contrast ratio is monotone
in OKLCH lightness over the searched bracket, a returned `'lighter'`
suggestion converges (within the bracket tolerance 0.001) on the smallest
lightness ≥ l0 that satisfies the target ratio, and a returned `'darker'`
suggestion on the largest lightness ≤ l0 that satisfies it. -/
theorem findLightnessForContrast_converges (o : OKLCH) (fixedColor : RGB)
    (targetRatio : ℝ) (d : Direction) (aBg : Bool)
    (h0 : 0 ≤ o.l) (h1 : o.l ≤ 1)
    (hmono : MonoForDirection (achievedRatio o fixedColor aBg) o.l d) :
    (findLightnessForContrast o fixedColor targetRatio d aBg).elim True (fun s =>
      match d with
      | .lighter =>
        achievedRatio o fixedColor aBg (o.l + s.percentChange / 100) ≥ targetRatio ∧
        ∀ l, o.l ≤ l → l ≤ 1 → achievedRatio o fixedColor aBg l ≥ targetRatio →
          o.l + s.percentChange / 100 ≤ l + 0.001
      | .darker =>
        achievedRatio o fixedColor aBg (o.l - s.percentChange / 100) ≥ targetRatio ∧
        ∀ l, 0 ≤ l → l ≤ o.l → achievedRatio o fixedColor aBg l ≥ targetRatio →
          l ≤ o.l - s.percentChange / 100 + 0.001) := by
  cases d
  case lighter =>
    simp only [MonoForDirection] at hmono
    simp only [findLightnessForContrast]
    set g := achievedRatio o fixedColor aBg with hg
    set res := searchLoop g targetRatio .lighter 20 o.l 1 with hres
    obtain ⟨b1, b2, b3⟩ := searchLoop_bounds g targetRatio .lighter 20 o.l 1 h1
    rw [← hres] at b1 b2 b3
    have hwidth : res.2.1 - res.1 ≤ 0.001 := by
      have hw := searchLoop_width g targetRatio .lighter 20 o.l 1
      rw [← hres] at hw
      have h2 : (1 - o.l) / 2 ^ 20 ≤ 0.001 := by
        have hp : (0 : ℝ) < 2 ^ 20 := by positivity
        rw [div_le_iff₀ hp]
        have he : (0.001 : ℝ) * 2 ^ 20 = 1048.576 := by norm_num
        linarith
      exact le_trans hw (max_le (le_refl _) h2)
    split_ifs with hfin
    · simp only [Option.elim]
      have hfl : o.l + |res.2.1 - o.l| * 100 / 100 = res.2.1 := by
        rw [abs_of_nonneg (by linarith)]
        ring
      refine ⟨?_, ?_⟩
      · rw [hfl]
        exact hfin
      · intro l hl0 hl1 hgl
        have hmin := searchLoop_lighter_inv g targetRatio o.l hmono 20 o.l 1
          (le_refl _) (le_refl _) h1 (fun l' hl' _ _ => hl') l hl0 hl1 hgl
        rw [← hres] at hmin
        rw [hfl]
        linarith
    · exact trivial
  case darker =>
    simp only [MonoForDirection] at hmono
    simp only [findLightnessForContrast]
    set g := achievedRatio o fixedColor aBg with hg
    set res := searchLoop g targetRatio .darker 20 0 o.l with hres
    obtain ⟨b1, b2, b3⟩ := searchLoop_bounds g targetRatio .darker 20 0 o.l h0
    rw [← hres] at b1 b2 b3
    have hwidth : res.2.1 - res.1 ≤ 0.001 := by
      have hw := searchLoop_width g targetRatio .darker 20 0 o.l
      rw [← hres] at hw
      have h2 : (o.l - 0) / 2 ^ 20 ≤ 0.001 := by
        have hp : (0 : ℝ) < 2 ^ 20 := by positivity
        rw [div_le_iff₀ hp]
        have he : (0.001 : ℝ) * 2 ^ 20 = 1048.576 := by norm_num
        linarith
      exact le_trans hw (max_le (le_refl _) h2)
    split_ifs with hfin
    · simp only [Option.elim]
      have hfl : o.l - |res.1 - o.l| * 100 / 100 = res.1 := by
        rw [abs_of_nonpos (by linarith)]
        ring
      refine ⟨?_, ?_⟩
      · rw [hfl]
        exact hfin
      · intro l hl0 hl1 hgl
        have hmax := searchLoop_darker_inv g targetRatio o.l hmono 20 0 o.l
          (le_refl _) (le_refl _) h0 (fun l' _ hl' _ => hl') l hl0 hl1 hgl
        rw [← hres] at hmax
        rw [hfl]
        linarith
    · exact trivial

/-- Witness for C5 at the degenerate lighter bracket `[1, 1]`, where the
monotonicity precondition holds trivially. -/
theorem findLightnessForContrast_converges_witness :
    ((0 : ℝ) ≤ 1) ∧ ((1 : ℝ) ≤ 1) ∧
      MonoForDirection (achievedRatio ⟨1, 0, 0⟩ ⟨0, 0, 0⟩ false) 1 .lighter ∧
      ((findLightnessForContrast ⟨1, 0, 0⟩ ⟨0, 0, 0⟩ 4.5 .lighter false).elim True (fun s =>
        achievedRatio ⟨1, 0, 0⟩ ⟨0, 0, 0⟩ false (1 + s.percentChange / 100) ≥ 4.5 ∧
        ∀ l, (1 : ℝ) ≤ l → l ≤ 1 →
          achievedRatio ⟨1, 0, 0⟩ ⟨0, 0, 0⟩ false l ≥ 4.5 →
          1 + s.percentChange / 100 ≤ l + 0.001)) := by
  have hmono : MonoForDirection (achievedRatio ⟨1, 0, 0⟩ ⟨0, 0, 0⟩ false) 1 .lighter := by
    intro l1 l2 hl1 hl12 hl2
    have he : l1 = l2 := le_antisymm hl12 (le_trans hl2 hl1)
    rw [he]
  exact ⟨by norm_num, le_refl 1, hmono,
    findLightnessForContrast_converges ⟨1, 0, 0⟩ ⟨0, 0, 0⟩ 4.5 .lighter false
      (by norm_num) (le_refl 1) hmono⟩
